import Mathlib

/-! # waybl: focus-driven wallpaper blur orchestrator

A shallow embedding of `main.go` and the properties of its components:
the path resolver, the wallpaper applier with bounded retry, the blur state
machine, the focus classifier, the generation coordinator, the variant
generator's image pipeline and the argument loop of `main`.

Go strings are modelled by `String`, Go maps by association lists with
pairwise distinct keys (`GoMap`), goroutine launches by the list of launched
calls, and the external commands by the sequence of their outcomes.
-/

namespace Waybl

/-! ## Go maps -/

/-- A Go `map[string]V`: its entries, keys pairwise distinct. The order of the
list is the order in which `range` happens to visit the entries. -/
abbrev GoMap (V : Type) := List (String × V)

/-- The Go lookup `v, ok := m[k]`, as an option. -/
def GoMap.get? {V : Type} : GoMap V → String → Option V
  | [], _ => none
  | (k', v) :: rest, k => if k' = k then some v else GoMap.get? rest k

/-- The Go assignment `m[k] = v`: replaces the entry of `k` or adds one. -/
def GoMap.set {V : Type} : GoMap V → String → V → GoMap V
  | [], k, v => [(k, v)]
  | (k', v') :: rest, k, v =>
    if k' = k then (k, v) :: rest else (k', v') :: GoMap.set rest k v

/-! ## Path resolver (main.go 206-212) -/

/-- Source: `return wayblDir + "/" + output + "_blur.jpg"`. -/
def getBlurredWallpaperPath (output : String) (wayblDir : String) : String :=
  wayblDir ++ "/" ++ output ++ "_blur.jpg"

/-- Source: `return wayblDir + "/" + output + ".jpg"`. -/
def getNormalWallpaperPath (output : String) (wayblDir : String) : String :=
  wayblDir ++ "/" ++ output ++ ".jpg"

/-! ## Wallpaper applier (main.go 158-185) -/

/-- What one call of `setWallpaper` did: how many times it ran the external
command, and whether it ended in `panic`. -/
structure ApplyResult where
  attempts : Nat
  panicked : Bool
  deriving DecidableEq, Repr

/-- The loop `for err != nil && retriesLeft > 0` of `setWallpaper`.
`cmd n` is the outcome of the run number `n` (from 0) of the external command,
`true` for a nil error. The `err` of the loop condition is the outer variable,
which the `:=` inside the body shadows and never assigns: it stays non-nil, so
the condition is `retriesLeft > 0`. `attempts` counts the runs made so far. -/
def setWallpaperLoop (cmd : Nat → Bool) : Nat → Nat → ApplyResult
  | 0, attempts => ⟨attempts, false⟩
  | retriesLeft + 1, attempts =>
    if cmd attempts then
      -- `break`
      ⟨attempts + 1, false⟩
    else if retriesLeft ≤ 0 then
      -- `retriesLeft--` and then `if retriesLeft <= 0 { panic(...) }`
      ⟨attempts + 1, true⟩
    else
      setWallpaperLoop cmd retriesLeft (attempts + 1)

/-- Source: `setWallpaper`, with `retriesLeft := 5`. -/
def setWallpaper (cmd : Nat → Bool) : ApplyResult :=
  setWallpaperLoop cmd 5 0

/-! ## Blur state machine (main.go 187-204) -/

/-- One call `setWallpaper(output, wallpaperPath)`. -/
structure ApplierCall where
  output : String
  wallpaperPath : String
  deriving DecidableEq, Repr

/-- The Go read `blurBools[output]`: the zero value `false` without an entry. -/
def stored (blurBools : GoMap Bool) (output : String) : Bool :=
  (blurBools.get? output).getD false

/-- Source: `setBlur`. Returns the new `blurBools` and the calls of
`setWallpaper` it made. The parameter `outputWalls` is unused, as in the
source. -/
def setBlur (output : String) (newBlur : Bool) (wayblDir : String)
    (_outputWalls : GoMap String) (blurBools : GoMap Bool) :
    GoMap Bool × List ApplierCall :=
  if (stored blurBools output && newBlur) || (!stored blurBools output && !newBlur) then
    (blurBools, [])
  else
    let blurBools1 := blurBools.set output newBlur
    if newBlur then
      (blurBools1, [⟨output, getBlurredWallpaperPath output wayblDir⟩])
    else
      (blurBools1, [⟨output, getNormalWallpaperPath output wayblDir⟩])

/-! ## Scene graph and focus classifier (main.go 214-247) -/

/-- The type tag of a scene-graph node: the three tags the program looks at,
and any other tag. -/
inductive NodeType where
  | Con
  | FloatingCon
  | OutputNode
  | Other (tag : String)
  deriving DecidableEq, Repr

/-- A scene-graph node: the fields of `sway.Node` that the program reads. -/
inductive Node where
  | mk (type : NodeType) (Visible : Bool) (Name : String) (Nodes : List Node)

/-- Field `Type` of a node. -/
def Node.type : Node → NodeType
  | .mk t _ _ _ => t

/-- Field `Visible` of a node. -/
def Node.Visible : Node → Bool
  | .mk _ v _ _ => v

/-- Field `Name` of a node. -/
def Node.Name : Node → String
  | .mk _ _ n _ => n

/-- Field `Nodes` of a node. -/
def Node.Nodes : Node → List Node
  | .mk _ _ _ ns => ns

mutual
/-- Source: `isDescendantFocused`. -/
def isDescendantFocused : Node → Bool
  | .mk t v _ ns =>
    if (t = NodeType.Con ∨ t = NodeType.FloatingCon) ∧ v = true then true
    else isDescendantFocusedNodes ns
/-- The loop `for _, n := range root.Nodes` of `isDescendantFocused`. -/
def isDescendantFocusedNodes : List Node → Bool
  | [] => false
  | n :: rest => if isDescendantFocused n then true else isDescendantFocusedNodes rest
end

mutual
/-- The nodes of the subtree rooted at a node: the node itself and, through
`Nodes`, its descendants at any depth. -/
def subtree : Node → List Node
  | .mk t v n ns => Node.mk t v n ns :: subtreeNodes ns
/-- The nodes of the subtrees rooted at the nodes of a list. -/
def subtreeNodes : List Node → List Node
  | [] => []
  | n :: rest => subtree n ++ subtreeNodes rest
end

/-- A node that makes the focus classifier answer true: a container or
floating container marked visible. -/
def isVisibleCon (n : Node) : Prop :=
  (n.type = NodeType.Con ∨ n.type = NodeType.FloatingCon) ∧ n.Visible = true

/-- Source: `checkOutputs`, every launched `setBlur` run to its end in the
order of launch. Returns the new `blurBools` and the calls of `setWallpaper`. -/
def checkOutputs : List Node → String → GoMap String → GoMap Bool →
    GoMap Bool × List ApplierCall
  | [], _, _, blurBools => (blurBools, [])
  | o :: rest, wayblDir, outputWalls, blurBools =>
    if o.type = NodeType.OutputNode then
      let r1 := setBlur o.Name (isDescendantFocused o) wayblDir outputWalls blurBools
      let r2 := checkOutputs rest wayblDir outputWalls r1.1
      (r2.1, r1.2 ++ r2.2)
    else
      checkOutputs rest wayblDir outputWalls blurBools

/-- Source: `checkEntireTree`, on the root node that `sway.GetTree` returned. -/
def checkEntireTree (root : Node) (wayblDir : String) (outputWalls : GoMap String)
    (blurBools : GoMap Bool) : GoMap Bool × List ApplierCall :=
  checkOutputs root.Nodes wayblDir outputWalls blurBools

/-! ## Variant generator (main.go 125-156) -/

/-- Source: the argument vector of the command that `makeCropped` runs. -/
def makeCroppedArgs (dir output wallpaperPath : String) : List String :=
  ["convert", wallpaperPath,
   "-geometry", "1920x1080^",
   "-gravity", "center",
   "-crop", "1920x1080+0+0",
   getNormalWallpaperPath output dir]

/-- Source: the argument vector of the command that `makeBlurred` runs;
`blurAmount` is the global variable of that name. -/
def makeBlurredArgs (blurAmount dir output wallpaperPath : String) : List String :=
  ["convert", wallpaperPath,
   "-geometry", "1920x1080^",
   "-gravity", "center",
   "-crop", "1920x1080+0+0",
   "-resize", "5%",
   "-blur", blurAmount,
   "-resize", "1000%",
   getBlurredWallpaperPath output dir]

/-- The operations of an image pipeline: the (option, value) pairs that stand
between the input image and the output file. -/
def pipelineOps : List String → List (String × String)
  | opt :: val :: out :: rest => (opt, val) :: pipelineOps (out :: rest)
  | _ => []

/-- The value of a decimal digit. -/
def digitValue (c : Char) : Option Nat :=
  if c.isDigit then some (c.toNat - '0'.toNat) else none

/-- The number written by a list of decimal digits, after the digits `acc`. -/
def digitsValue : List Char → Nat → Option Nat
  | [], acc => some acc
  | c :: rest, acc =>
    match digitValue c with
    | some d => digitsValue rest (acc * 10 + d)
    | none => none

/-- The number `n` of a percentage `n%`. -/
def parsePercent (s : String) : Option Nat :=
  match s.data.reverse with
  | '%' :: d :: ds => digitsValue (d :: ds).reverse 0
  | _ => none

/-- The percentages of the `-resize` operations of a command, in order; the
command is the program name, the input image, the operations, the output. -/
def resizePercents (argv : List String) : List Nat :=
  (pipelineOps (argv.drop 2)).filterMap
    (fun p => if p.1 = "-resize" then parsePercent p.2 else none)

/-- The scale that successive resizes by the given percentages compose to,
1 being the size of the image before the first of them. -/
def composedScale (percents : List Nat) : ℚ :=
  (percents.map (fun p => (p : ℚ) / 100)).prod

/-! ## Generation coordinator (main.go 92-123) -/

/-- A launched generation goroutine: the call it makes. -/
inductive GenTask where
  | makeBlurred (dir output path : String)
  | makeCropped (dir output path : String)
  deriving DecidableEq, Repr

/-- The file a generation task writes: the last argument of its command. -/
def GenTask.outputFile : GenTask → String
  | .makeBlurred dir output _ => getBlurredWallpaperPath output dir
  | .makeCropped dir output _ => getNormalWallpaperPath output dir

/-- The value a generation task sends on `done` when its call has returned:
both goroutines end in `done <- true`. -/
def GenTask.signal : GenTask → Bool
  | .makeBlurred _ _ _ => true
  | .makeCropped _ _ _ => true

/-- The state of the launching loop of `makeWallpapers`. -/
structure Launched where
  tasksLeft : Nat
  tasks : List GenTask
  deriving DecidableEq, Repr

/-- The loop `for output, path := range outputWalls` of `makeWallpapers`. -/
def launchLoop (dir : String) : List (String × String) → Launched → Launched
  | [], st => st
  | (output, path) :: rest, st =>
    launchLoop dir rest
      ⟨st.tasksLeft + 2,
       st.tasks ++ [GenTask.makeBlurred dir output path, GenTask.makeCropped dir output path]⟩

/-- The launches of `makeWallpapers`, from `tasksLeft := 0`. -/
def launch (dir : String) (outputWalls : GoMap String) : Launched :=
  launchLoop dir outputWalls ⟨0, []⟩

/-- The loop `for tasksLeft > 0 && <-done` of `makeWallpapers`. `done` is the
sequence of values the channel delivers, `received` counts the receives made.
`none` when the loop blocks on a receive that nothing answers; otherwise the
number of receives at the exit of the loop. -/
def waitLoop : Nat → List Bool → Nat → Option Nat
  | 0, _, received => some received
  | _ + 1, [], _ => none
  | tasksLeft + 1, b :: done, received =>
    if b then waitLoop tasksLeft done (received + 1) else some (received + 1)

/-- Source: `makeWallpapers`. `done` is the sequence of values the channel
delivers. Returns the launched tasks and the number of completion signals
received, or `none` when it never returns. -/
def makeWallpapers (dir : String) (outputWalls : GoMap String) (done : List Bool) :
    Option (List GenTask × Nat) :=
  let st := launch dir outputWalls
  (waitLoop st.tasksLeft done 0).map (fun received => (st.tasks, received))

/-- The files that the tasks launched by `makeWallpapers` write. -/
def writtenFiles (dir : String) (outputWalls : GoMap String) : List String :=
  (launch dir outputWalls).tasks.map GenTask.outputFile

/-! ## Argument loop of main (main.go 34-66) -/

/-- Go `strings.Split` with a one-character separator, on the characters. -/
def splitChars (sep : Char) : List Char → List (List Char)
  | [] => [[]]
  | c :: rest =>
    if c = sep then [] :: splitChars sep rest
    else
      match splitChars sep rest with
      | [] => [[c]]
      | part :: parts => (c :: part) :: parts

/-- Source: `strings.Split(arg, ":")`. -/
def splitColon (arg : String) : List String :=
  (splitChars ':' arg.data).map String.mk

/-- Source: `strings.Contains(arg, ":")`. -/
def containsColon (arg : String) : Bool :=
  arg.data.contains ':'

/-- The variables that the argument loop of `main` assigns, and the calls of
`setWallpaper` it launches. -/
structure ArgState where
  blurAmount : String
  outputWalls : GoMap String
  globalWallpaper : String
  applies : List ApplierCall
  deriving DecidableEq, Repr

/-- The variables before the loop: `blurAmount = "0x2"`, an empty map, and the
zero value of `globalWallpaper`. -/
def ArgState.init : ArgState := ⟨"0x2", [], "", []⟩

/-- The body of the argument loop of `main`, over the arguments from index 1.
`expandEnv` is `os.ExpandEnv`. `none` is the panic of reading `os.Args[i+1]`
past the end. -/
def argLoop (expandEnv : String → String) : List String → ArgState → Option ArgState
  | [], st => some st
  | arg :: rest, st =>
    if arg = "-b" ∨ arg = "--blur" then
      match rest with
      | [] => none
      | amount :: rest1 => argLoop expandEnv rest1 { st with blurAmount := amount }
    else if containsColon arg then
      match splitColon arg with
      | output :: raw :: _ =>
        let wallpaperPath := expandEnv raw
        argLoop expandEnv rest
          { st with outputWalls := st.outputWalls.set output wallpaperPath,
                    applies := st.applies ++ [⟨output, wallpaperPath⟩] }
      | _ => none
    else
      argLoop expandEnv rest
        { st with globalWallpaper := arg, applies := st.applies ++ [⟨"*", arg⟩] }

/-- The argument loop of `main` on `os.Args`; index 0 is skipped. -/
def mainArgs (expandEnv : String → String) (osArgs : List String) : Option ArgState :=
  argLoop expandEnv (osArgs.drop 1) ArgState.init

/-- The image an output resolves to: its entry in the output->image map when
it has one, the recorded global wallpaper otherwise. -/
def resolveImage (st : ArgState) (output : String) : String :=
  (st.outputWalls.get? output).getD st.globalWallpaper

/-- The argument `name:path`. -/
def entryArg (e : String × String) : String := e.1 ++ ":" ++ e.2

/-! ## Interleavings of concurrent setBlur calls -/

/-- Where a goroutine running `setBlur` stands. -/
inductive BlurPc where
  | check
  | write
  | apply
  | finished
  deriving DecidableEq, Repr

/-- A goroutine `go setBlur(output, newBlur, wayblDir, outputWalls)`. -/
structure BlurThread where
  output : String
  newBlur : Bool
  wayblDir : String
  pc : BlurPc
  deriving DecidableEq, Repr

/-- The shared `blurBools`, the calls of `setWallpaper` made so far, and the
goroutines. The source takes no lock in `setBlur`: `mtx` is declared and never
locked. -/
structure ConcState where
  blurBools : GoMap Bool
  calls : List ApplierCall
  threads : List BlurThread
  deriving DecidableEq, Repr

/-- One step of a goroutine running `setBlur`: the test of line 189, the
assignment of line 193, or the call of `setWallpaper` of lines 195-203. -/
def stepThread (t : BlurThread) (blurBools : GoMap Bool) (calls : List ApplierCall) :
    BlurThread × GoMap Bool × List ApplierCall :=
  match t.pc with
  | .check =>
    if (stored blurBools t.output && t.newBlur) || (!stored blurBools t.output && !t.newBlur) then
      ({ t with pc := .finished }, blurBools, calls)
    else
      ({ t with pc := .write }, blurBools, calls)
  | .write => ({ t with pc := .apply }, blurBools.set t.output t.newBlur, calls)
  | .apply =>
    if t.newBlur then
      ({ t with pc := .finished }, blurBools,
        calls ++ [⟨t.output, getBlurredWallpaperPath t.output t.wayblDir⟩])
    else
      ({ t with pc := .finished }, blurBools,
        calls ++ [⟨t.output, getNormalWallpaperPath t.output t.wayblDir⟩])
  | .finished => (t, blurBools, calls)

/-- Runs a schedule: each entry names the goroutine that takes the next step. -/
def runSchedule : List Nat → ConcState → ConcState
  | [], st => st
  | i :: rest, st =>
    match st.threads.get? i with
    | none => runSchedule rest st
    | some t =>
      let r := stepThread t st.blurBools st.calls
      runSchedule rest ⟨r.2.1, r.2.2, st.threads.set i r.1⟩

/-- The two variant files of an output: the set of the two paths the path
resolver gives for it. -/
def variantFiles (output : String) (wayblDir : String) : List String :=
  [getNormalWallpaperPath output wayblDir, getBlurredWallpaperPath output wayblDir]

/-! ## Lemmas on Go maps and strings -/

theorem GoMap.get?_set_same {V : Type} (m : GoMap V) (k : String) (v : V) :
    GoMap.get? (GoMap.set m k v) k = some v := by
  induction m with
  | nil => simp [GoMap.set, GoMap.get?]
  | cons e rest ih =>
    obtain ⟨k1, v1⟩ := e
    by_cases h : k1 = k
    · simp [GoMap.set, GoMap.get?, h]
    · simp [GoMap.set, GoMap.get?, h, ih]

theorem GoMap.get?_set_other {V : Type} (m : GoMap V) (k k2 : String) (v : V)
    (hne : k2 ≠ k) : GoMap.get? (GoMap.set m k v) k2 = GoMap.get? m k2 := by
  induction m with
  | nil => simp [GoMap.set, GoMap.get?, Ne.symm hne]
  | cons e rest ih =>
    obtain ⟨k1, v1⟩ := e
    by_cases h : k1 = k
    · subst h
      simp [GoMap.set, GoMap.get?, Ne.symm hne]
    · by_cases h2 : k1 = k2
      · subst h2
        simp [GoMap.set, GoMap.get?, h]
      · simp [GoMap.set, GoMap.get?, h, h2, ih]

theorem string_append_left_cancel (a b c : String) (h : a ++ b = a ++ c) : b = c := by
  have h2 := congrArg String.data h
  simp only [String.data_append] at h2
  exact String.ext (List.append_cancel_left h2)

theorem string_append_right_cancel (a b c : String) (h : a ++ c = b ++ c) : a = b := by
  have h2 := congrArg String.data h
  simp only [String.data_append] at h2
  exact String.ext (List.append_cancel_right h2)

theorem normalPath_injective (o1 o2 d : String)
    (h : getNormalWallpaperPath o1 d = getNormalWallpaperPath o2 d) : o1 = o2 := by
  unfold getNormalWallpaperPath at h
  have h1 := string_append_right_cancel _ _ _ h
  exact string_append_left_cancel _ _ _ h1

theorem blurredPath_injective (o1 o2 d : String)
    (h : getBlurredWallpaperPath o1 d = getBlurredWallpaperPath o2 d) : o1 = o2 := by
  unfold getBlurredWallpaperPath at h
  have h1 := string_append_right_cancel _ _ _ h
  exact string_append_left_cancel _ _ _ h1

theorem normalPath_eq_blurredPath (o1 o2 d : String)
    (h : getNormalWallpaperPath o1 d = getBlurredWallpaperPath o2 d) :
    o1 = o2 ++ "_blur" := by
  unfold getNormalWallpaperPath getBlurredWallpaperPath at h
  have e : d ++ "/" ++ o2 ++ "_blur.jpg" = d ++ "/" ++ (o2 ++ "_blur") ++ ".jpg" := by
    apply String.ext
    simp [String.data_append]
  rw [e] at h
  have h1 := string_append_right_cancel _ _ _ h
  exact string_append_left_cancel _ _ _ h1

/-! ## Path resolver -/

/-- Claim C4: for every output name and cache directory the normal path is
the directory, a slash, the name and `.jpg`, the blurred path is the directory,
a slash, the name and `_blur.jpg`, and the two paths differ. -/
theorem C4_paths (o d : String) :
    getNormalWallpaperPath o d = d ++ "/" ++ o ++ ".jpg" ∧
    getBlurredWallpaperPath o d = d ++ "/" ++ o ++ "_blur.jpg" ∧
    getNormalWallpaperPath o d ≠ getBlurredWallpaperPath o d := by
  refine ⟨rfl, rfl, ?_⟩
  intro h
  have h1 := normalPath_eq_blurredPath o o d h
  have h2 := congrArg String.length h1
  simp [String.length_append] at h2
  have h3 : "_blur".length = 5 := by decide
  omega

/-- Claim C9, as stated, fails: the outputs `x_blur` and `x` are distinct, and
the normal variant of the first is the blurred variant of the second, so their
pairs of variant files are not disjoint. -/
theorem C9_counterexample :
    "x_blur" ≠ "x" ∧ ¬ List.Disjoint (variantFiles "x_blur" "/d") (variantFiles "x" "/d") := by
  refine ⟨by decide, fun h => ?_⟩
  have h1 : getNormalWallpaperPath "x_blur" "/d" ∈ variantFiles "x_blur" "/d" := by
    simp [variantFiles]
  have h2 : getNormalWallpaperPath "x_blur" "/d" ∈ variantFiles "x" "/d" := by
    decide
  exact h h1 h2

/-- Claim C9, amended: for every cache directory and two distinct output names
neither of which is the other followed by `_blur`, the two pairs of variant
files have no element in common. -/
theorem C9_disjoint_variant_files (d o1 o2 : String) (hne : o1 ≠ o2)
    (h12 : o1 ≠ o2 ++ "_blur") (h21 : o2 ≠ o1 ++ "_blur") :
    List.Disjoint (variantFiles o1 d) (variantFiles o2 d) := by
  intro p h1 h2
  simp only [variantFiles, List.mem_cons, List.mem_singleton, List.not_mem_nil, or_false] at h1 h2
  rcases h1 with h1 | h1 <;> rcases h2 with h2 | h2
  · exact hne (normalPath_injective o1 o2 d (h1 ▸ h2))
  · exact h12 (normalPath_eq_blurredPath o1 o2 d (h1 ▸ h2))
  · exact h21 (normalPath_eq_blurredPath o2 o1 d (h2 ▸ h1))
  · exact hne (blurredPath_injective o1 o2 d (h1 ▸ h2))

/-- Witness of `C9_disjoint_variant_files` at the outputs `eDP-1` and `HDMI-A-1`. -/
theorem C9_disjoint_variant_files_witness :
    List.Disjoint (variantFiles "eDP-1" "/home/u/.waybl") (variantFiles "HDMI-A-1" "/home/u/.waybl") :=
  C9_disjoint_variant_files "/home/u/.waybl" "eDP-1" "HDMI-A-1" (by decide) (by decide) (by decide)

/-! ## Focus classifier -/

theorem isVisibleCon_mk (t : NodeType) (v : Bool) (n : String) (ns : List Node) :
    isVisibleCon (Node.mk t v n ns) ↔
      (t = NodeType.Con ∨ t = NodeType.FloatingCon) ∧ v = true := by
  simp [isVisibleCon, Node.type, Node.Visible]

mutual
theorem isDescendantFocused_iff :
    ∀ root : Node, isDescendantFocused root = true ↔ ∃ n, n ∈ subtree root ∧ isVisibleCon n
  | .mk t v name ns => by
    have ih := isDescendantFocusedNodes_iff ns
    by_cases hc : (t = NodeType.Con ∨ t = NodeType.FloatingCon) ∧ v = true
    · constructor
      · intro _
        exact ⟨Node.mk t v name ns, by simp [subtree], (isVisibleCon_mk t v name ns).2 hc⟩
      · intro _
        simp [isDescendantFocused, hc]
    · constructor
      · intro h
        have h1 : isDescendantFocusedNodes ns = true := by
          simpa [isDescendantFocused, hc] using h
        obtain ⟨n, hn, hv⟩ := ih.1 h1
        exact ⟨n, by simp [subtree, hn], hv⟩
      · rintro ⟨n, hn, hv⟩
        simp only [subtree, List.mem_cons] at hn
        rcases hn with hn | hn
        · subst hn
          exact absurd ((isVisibleCon_mk t v name ns).1 hv) hc
        · have h1 := ih.2 ⟨n, hn, hv⟩
          simpa [isDescendantFocused, hc] using h1
theorem isDescendantFocusedNodes_iff :
    ∀ ns : List Node,
      isDescendantFocusedNodes ns = true ↔ ∃ n, n ∈ subtreeNodes ns ∧ isVisibleCon n
  | [] => by simp [isDescendantFocusedNodes, subtreeNodes]
  | m :: rest => by
    have ih1 := isDescendantFocused_iff m
    have ih2 := isDescendantFocusedNodes_iff rest
    by_cases hm : isDescendantFocused m = true
    · constructor
      · intro _
        obtain ⟨n, hn, hv⟩ := ih1.1 hm
        exact ⟨n, by simp [subtreeNodes, hn], hv⟩
      · intro _
        simp [isDescendantFocusedNodes, hm]
    · constructor
      · intro h
        have h1 : isDescendantFocusedNodes rest = true := by
          simpa [isDescendantFocusedNodes, hm] using h
        obtain ⟨n, hn, hv⟩ := ih2.1 h1
        exact ⟨n, by simp [subtreeNodes, hn], hv⟩
      · rintro ⟨n, hn, hv⟩
        simp only [subtreeNodes, List.mem_append] at hn
        rcases hn with hn | hn
        · exact absurd (ih1.2 ⟨n, hn, hv⟩) hm
        · have h1 := ih2.2 ⟨n, hn, hv⟩
          simpa [isDescendantFocusedNodes, hm] using h1
end

/-- Claim C1: `isDescendantFocused root` is true exactly when some node of the
subtree rooted at `root` (root included, at any depth) is a container or
floating container marked visible; and it is false for every subtree without
such a node. -/
theorem C1_isDescendantFocused_spec (root : Node) :
    (isDescendantFocused root = true ↔
      ∃ n, n ∈ subtree root ∧
        (n.type = NodeType.Con ∨ n.type = NodeType.FloatingCon) ∧ n.Visible = true) ∧
    ((∀ n, n ∈ subtree root →
        ¬ ((n.type = NodeType.Con ∨ n.type = NodeType.FloatingCon) ∧ n.Visible = true)) →
      isDescendantFocused root = false) := by
  have h := isDescendantFocused_iff root
  refine ⟨h, fun hno => ?_⟩
  cases hf : isDescendantFocused root with
  | false => rfl
  | true =>
    obtain ⟨n, hn, hv⟩ := h.1 hf
    exact absurd hv (hno n hn)

/-! ## Blur state machine -/

theorem setBlur_same (o d : String) (b : Bool) (w : GoMap String) (s : GoMap Bool)
    (h : b = stored s o) : setBlur o b d w s = (s, []) := by
  subst h
  cases hs : stored s o <;> simp [setBlur, hs]

theorem setBlur_differ (o d : String) (b : Bool) (w : GoMap String) (s : GoMap Bool)
    (h : b ≠ stored s o) :
    setBlur o b d w s =
      (s.set o b,
        [⟨o, if b = true then getBlurredWallpaperPath o d else getNormalWallpaperPath o d⟩]) := by
  cases hs : stored s o <;> cases b <;> simp_all [setBlur]

theorem stored_set_same (s : GoMap Bool) (o : String) (b : Bool) :
    stored (s.set o b) o = b := by
  simp [stored, GoMap.get?_set_same]

/-- Claim C2: with the stored state of an output read as false when it has no
entry, `setBlur` with `shouldBlur` equal to the stored state leaves the map
unchanged and calls the applier not at all; otherwise it sets the entry of the
output to `shouldBlur`, leaves every other entry as it was and calls the applier
exactly once, for that output, with the blurred path when `shouldBlur` is true
and the normal path when it is false. A second call with the same `shouldBlur`
right after the first changes nothing and calls nothing, so the two calls
together make at most one applier call. -/
theorem C2_setBlur_transition (s : GoMap Bool) (o d : String) (shouldBlur : Bool)
    (w : GoMap String) :
    (shouldBlur = stored s o → setBlur o shouldBlur d w s = (s, [])) ∧
    (shouldBlur ≠ stored s o →
      (setBlur o shouldBlur d w s).1 = s.set o shouldBlur ∧
      (setBlur o shouldBlur d w s).1.get? o = some shouldBlur ∧
      (∀ o2, o2 ≠ o → (setBlur o shouldBlur d w s).1.get? o2 = s.get? o2) ∧
      (setBlur o shouldBlur d w s).2 =
        [⟨o, if shouldBlur = true then getBlurredWallpaperPath o d
             else getNormalWallpaperPath o d⟩]) ∧
    (setBlur o shouldBlur d w (setBlur o shouldBlur d w s).1 =
        ((setBlur o shouldBlur d w s).1, []) ∧
      ((setBlur o shouldBlur d w s).2 ++
        (setBlur o shouldBlur d w (setBlur o shouldBlur d w s).1).2).length ≤ 1) := by
  refine ⟨setBlur_same o d shouldBlur w s, ?_, ?_⟩
  · intro h
    rw [setBlur_differ o d shouldBlur w s h]
    exact ⟨rfl, GoMap.get?_set_same s o shouldBlur,
      fun o2 h2 => GoMap.get?_set_other s o o2 shouldBlur h2, rfl⟩
  · have hsecond : setBlur o shouldBlur d w (setBlur o shouldBlur d w s).1 =
        ((setBlur o shouldBlur d w s).1, []) := by
      apply setBlur_same
      by_cases h : shouldBlur = stored s o
      · rw [setBlur_same o d shouldBlur w s h]
        exact h
      · rw [setBlur_differ o d shouldBlur w s h]
        exact (stored_set_same s o shouldBlur).symm
    refine ⟨hsecond, ?_⟩
    rw [hsecond]
    by_cases h : shouldBlur = stored s o
    · rw [setBlur_same o d shouldBlur w s h]
      simp
    · rw [setBlur_differ o d shouldBlur w s h]
      simp

/-- Witness of `C2_setBlur_transition`: a first blur of `eDP-1` from the empty
map, where the stored state reads false. -/
theorem C2_setBlur_transition_witness :
    true ≠ stored [] "eDP-1" ∧
    (setBlur "eDP-1" true "/home/u/.waybl" [] []).1 = [("eDP-1", true)] ∧
    (setBlur "eDP-1" true "/home/u/.waybl" [] []).2 =
      [⟨"eDP-1", "/home/u/.waybl/eDP-1_blur.jpg"⟩] :=
  ⟨by decide,
   ((C2_setBlur_transition [] "eDP-1" "/home/u/.waybl" true []).2.1 (by decide)).1,
   ((C2_setBlur_transition [] "eDP-1" "/home/u/.waybl" true []).2.1 (by decide)).2.2.2⟩

/-! ## Wallpaper applier -/

theorem setWallpaperLoop_success (cmd : Nat → Bool) :
    ∀ (r n k : Nat), n ≤ k → k < n + r → cmd k = true →
      (∀ j, n ≤ j → j < k → cmd j = false) →
      setWallpaperLoop cmd r n = ⟨k + 1, false⟩ := by
  intro r
  induction r with
  | zero => intro n k h1 h2; omega
  | succ r ih =>
    intro n k h1 h2 hk hbefore
    by_cases hnk : n = k
    · subst hnk
      simp [setWallpaperLoop, hk]
    · have hn : cmd n = false := hbefore n (le_refl n) (by omega)
      have hr : ¬ r ≤ 0 := by omega
      simp only [setWallpaperLoop, hn, hr, Bool.false_eq_true, if_false]
      exact ih (n + 1) k (by omega) (by omega) hk (fun j hj1 hj2 => hbefore j (by omega) hj2)

theorem setWallpaperLoop_failure (cmd : Nat → Bool) :
    ∀ (r n : Nat), 0 < r → (∀ j, n ≤ j → j < n + r → cmd j = false) →
      setWallpaperLoop cmd r n = ⟨n + r, true⟩ := by
  intro r
  induction r with
  | zero => intro n h; omega
  | succ r ih =>
    intro n _ hall
    have hn : cmd n = false := hall n (le_refl n) (by omega)
    by_cases hr : r ≤ 0
    · have hr0 : r = 0 := by omega
      subst hr0
      simp [setWallpaperLoop, hn]
    · simp only [setWallpaperLoop, hn, hr, Bool.false_eq_true, if_false]
      rw [ih (n + 1) (by omega) (fun j hj1 hj2 => hall j (by omega) (by omega))]
      congr 1
      omega

theorem exists_first_success (cmd : Nat → Bool) (m : Nat) :
    (∀ j, j < m → cmd j = false) ∨
      ∃ k, k < m ∧ cmd k = true ∧ ∀ j, j < k → cmd j = false := by
  induction m with
  | zero => left; intro j hj; omega
  | succ m ih =>
    rcases ih with hall | ⟨k, hk, hck, hb⟩
    · cases hm : cmd m with
      | false =>
        left
        intro j hj
        by_cases hjm : j = m
        · subst hjm; exact hm
        · exact hall j (by omega)
      | true => exact Or.inr ⟨m, by omega, hm, hall⟩
    · exact Or.inr ⟨k, by omega, hck, hb⟩

/-- Claim C3: for every sequence of outcomes of the external command,
`setWallpaper` runs the command `min k 5` times, `k` being the position
(from 1) of the first success, and 5 times when there is no success; it panics
exactly when the first 5 outcomes are all failures. An always-failing command
gets 5 attempts and the panic; a command that fails twice and then succeeds
gets 3 attempts and no panic. -/
theorem C3_setWallpaper_retry (cmd : Nat → Bool) :
    (∀ k, cmd k = true → (∀ j, j < k → cmd j = false) →
      (setWallpaper cmd).attempts = min (k + 1) 5) ∧
    ((∀ j, cmd j = false) → (setWallpaper cmd).attempts = 5) ∧
    ((setWallpaper cmd).panicked = true ↔ ∀ j, j < 5 → cmd j = false) ∧
    setWallpaper (fun _ => false) = ⟨5, true⟩ ∧
    (cmd 0 = false → cmd 1 = false → cmd 2 = true → setWallpaper cmd = ⟨3, false⟩) := by
  have hfail : (∀ j, j < 5 → cmd j = false) → setWallpaper cmd = ⟨5, true⟩ := by
    intro hall
    have h := setWallpaperLoop_failure cmd 5 0 (by omega) (fun j _ hj => hall j (by omega))
    simpa [setWallpaper] using h
  have hsucc : ∀ k, k < 5 → cmd k = true → (∀ j, j < k → cmd j = false) →
      setWallpaper cmd = ⟨k + 1, false⟩ := by
    intro k hk hck hb
    exact setWallpaperLoop_success cmd 5 0 k (by omega) (by omega) hck (fun j _ hj => hb j hj)
  refine ⟨?_, ?_, ?_, ?_, ?_⟩
  · intro k hck hb
    by_cases hk : k < 5
    · rw [hsucc k hk hck hb]
      simp only
      omega
    · rw [hfail (fun j hj => hb j (by omega))]
      simp only
      omega
  · intro hall
    rw [hfail (fun j _ => hall j)]
  · constructor
    · intro hp
      rcases exists_first_success cmd 5 with hall | ⟨k, hk, hck, hb⟩
      · exact hall
      · rw [hsucc k hk hck hb] at hp
        simp at hp
    · intro hall
      rw [hfail hall]
  · decide
  · intro h0 h1 h2
    refine hsucc 2 (by omega) h2 (fun j hj => ?_)
    have hj2 : j = 0 ∨ j = 1 := by omega
    rcases hj2 with hj2 | hj2 <;> subst hj2 <;> assumption

/-- Witness of `C3_setWallpaper_retry`: a command that fails twice and then
succeeds gets 3 attempts. -/
theorem C3_setWallpaper_retry_witness :
    (setWallpaper (fun n => decide (n = 2))).attempts = min (2 + 1) 5 :=
  (C3_setWallpaper_retry (fun n => decide (n = 2))).1 2 (by decide)
    (fun j hj => by
      have hne : j ≠ 2 := by omega
      simp [hne])

/-! ## Generation coordinator -/

/-- The launching loop adds two to the counter and two tasks to the launched
ones for each entry of the output->image map. -/
theorem launchLoop_eq (dir : String) :
    ∀ (l : List (String × String)) (st : Launched),
      launchLoop dir l st =
        ⟨st.tasksLeft + 2 * l.length,
         st.tasks ++ l.flatMap (fun e =>
           [GenTask.makeBlurred dir e.1 e.2, GenTask.makeCropped dir e.1 e.2])⟩ := by
  intro l
  induction l with
  | nil => intro st; simp [launchLoop]
  | cons e rest ih =>
    intro st
    obtain ⟨o, p⟩ := e
    simp only [launchLoop, ih, List.length_cons, List.flatMap_cons, List.append_assoc]
    congr 1
    omega

theorem launch_eq (dir : String) (ow : GoMap String) :
    launch dir ow =
      ⟨2 * ow.length,
       ow.flatMap (fun e =>
         [GenTask.makeBlurred dir e.1 e.2, GenTask.makeCropped dir e.1 e.2])⟩ := by
  simp [launch, launchLoop_eq]

theorem count_makeBlurred (dir o p : String) :
    ∀ l : List (String × String),
      (l.flatMap (fun e =>
        [GenTask.makeBlurred dir e.1 e.2, GenTask.makeCropped dir e.1 e.2])).count
          (GenTask.makeBlurred dir o p) = l.count (o, p) := by
  intro l
  induction l with
  | nil => simp
  | cons e rest ih =>
    obtain ⟨o1, p1⟩ := e
    simp only [List.flatMap_cons, List.count_append, ih, List.count_cons, List.count_nil]
    by_cases h : o1 = o ∧ p1 = p
    · obtain ⟨h1, h2⟩ := h
      subst h1 h2
      simp
      omega
    · have h1 : ¬ (GenTask.makeBlurred dir o1 p1 = GenTask.makeBlurred dir o p) := by
        intro hc
        injection hc with _ ho hp
        exact h ⟨ho, hp⟩
      have h2 : ¬ ((o1, p1) = (o, p)) := by
        intro hc
        injection hc with ho hp
        exact h ⟨ho, hp⟩
      simp [h1, h2]

theorem count_makeCropped (dir o p : String) :
    ∀ l : List (String × String),
      (l.flatMap (fun e =>
        [GenTask.makeBlurred dir e.1 e.2, GenTask.makeCropped dir e.1 e.2])).count
          (GenTask.makeCropped dir o p) = l.count (o, p) := by
  intro l
  induction l with
  | nil => simp
  | cons e rest ih =>
    obtain ⟨o1, p1⟩ := e
    simp only [List.flatMap_cons, List.count_append, ih, List.count_cons, List.count_nil]
    by_cases h : o1 = o ∧ p1 = p
    · obtain ⟨h1, h2⟩ := h
      subst h1 h2
      simp
      omega
    · have h1 : ¬ (GenTask.makeCropped dir o1 p1 = GenTask.makeCropped dir o p) := by
        intro hc
        injection hc with _ ho hp
        exact h ⟨ho, hp⟩
      have h2 : ¬ ((o1, p1) = (o, p)) := by
        intro hc
        injection hc with ho hp
        exact h ⟨ho, hp⟩
      simp [h1, h2]

theorem waitLoop_all_received :
    ∀ (t : Nat) (done : List Bool) (r : Nat), done.length = t →
      (∀ b, b ∈ done → b = true) → waitLoop t done r = some (r + t) := by
  intro t
  induction t with
  | zero => intro done r _ _; simp [waitLoop]
  | succ t ih =>
    intro done r hlen hall
    cases done with
    | nil => simp at hlen
    | cons b rest =>
      have hb : b = true := hall b (by simp)
      subst hb
      simp only [waitLoop, if_true]
      rw [ih rest (r + 1) (by simpa using hlen) (fun b hb => hall b (by simp [hb]))]
      congr 1
      omega

theorem waitLoop_blocked :
    ∀ (t : Nat) (done : List Bool) (r : Nat), done.length < t →
      (∀ b, b ∈ done → b = true) → waitLoop t done r = none := by
  intro t
  induction t with
  | zero => intro done r hlen; omega
  | succ t ih =>
    intro done r hlen hall
    cases done with
    | nil => simp [waitLoop]
    | cons b rest =>
      have hb : b = true := hall b (by simp)
      subst hb
      simp only [waitLoop, if_true]
      exact ih rest (r + 1) (by simpa using hlen) (fun b hb => hall b (by simp [hb]))

/-- The file recorded for a generation task is the last argument of the
command that the task runs. -/
theorem outputFile_last_argument (blurAmount dir output path : String) :
    (makeBlurredArgs blurAmount dir output path).getLast? =
      some (GenTask.makeBlurred dir output path).outputFile ∧
    (makeCroppedArgs dir output path).getLast? =
      some (GenTask.makeCropped dir output path).outputFile := by
  simp [makeBlurredArgs, makeCroppedArgs, GenTask.outputFile]

theorem signal_true (order : List GenTask) :
    ∀ b, b ∈ order.map GenTask.signal → b = true := by
  intro b hb
  obtain ⟨t, _, ht⟩ := List.mem_map.1 hb
  cases t <;> exact ht.symm

/-- Claim C5: for an output->image map of N entries `makeWallpapers` launches
exactly 2N tasks, one `makeBlurred` and one `makeCropped` for each entry, each
with the entry's output name and source path and the given cache directory;
whatever the order in which the tasks complete, its wait loop returns after
receiving exactly 2N completion signals, and it has not returned while fewer
than 2N signals have arrived; for N = 0 it returns without waiting. -/
theorem C5_makeWallpapers_barrier (dir : String) (outputWalls : GoMap String) :
    (launch dir outputWalls).tasks =
      outputWalls.flatMap (fun e =>
        [GenTask.makeBlurred dir e.1 e.2, GenTask.makeCropped dir e.1 e.2]) ∧
    (launch dir outputWalls).tasks.length = 2 * outputWalls.length ∧
    (∀ o p, (launch dir outputWalls).tasks.count (GenTask.makeBlurred dir o p) =
        outputWalls.count (o, p) ∧
      (launch dir outputWalls).tasks.count (GenTask.makeCropped dir o p) =
        outputWalls.count (o, p)) ∧
    (∀ order : List GenTask, order.Perm (launch dir outputWalls).tasks →
      makeWallpapers dir outputWalls (order.map GenTask.signal) =
        some ((launch dir outputWalls).tasks, 2 * outputWalls.length)) ∧
    (∀ order : List GenTask, order.Perm (launch dir outputWalls).tasks →
      ∀ k, k < 2 * outputWalls.length →
        makeWallpapers dir outputWalls ((order.map GenTask.signal).take k) = none) ∧
    (∀ done : List Bool, makeWallpapers dir [] done = some ([], 0)) := by
  have hlen : (launch dir outputWalls).tasks.length = 2 * outputWalls.length := by
    rw [launch_eq]
    simp only
    induction outputWalls with
    | nil => simp
    | cons e rest ih =>
      simp only [List.flatMap_cons, List.length_append, ih, List.length_cons, List.length_nil]
      omega
  have hleft : (launch dir outputWalls).tasksLeft = 2 * outputWalls.length := by
    rw [launch_eq]
  refine ⟨?_, hlen, ?_, ?_, ?_, ?_⟩
  · rw [launch_eq]
  · intro o p
    rw [launch_eq]
    exact ⟨count_makeBlurred dir o p outputWalls, count_makeCropped dir o p outputWalls⟩
  · intro order hperm
    have hl : (order.map GenTask.signal).length = 2 * outputWalls.length := by
      rw [List.length_map, hperm.length_eq, hlen]
    simp only [makeWallpapers, hleft]
    rw [waitLoop_all_received _ _ 0 hl (signal_true order)]
    simp
  · intro order hperm k hk
    have hl : ((order.map GenTask.signal).take k).length < 2 * outputWalls.length := by
      rw [List.length_take]
      omega
    simp only [makeWallpapers, hleft]
    rw [waitLoop_blocked _ _ 0 hl
      (fun b hb => signal_true order b (List.mem_of_mem_take hb))]
    simp
  · intro done
    simp [makeWallpapers, launch, launchLoop, waitLoop]

/-- Witness of `C5_makeWallpapers_barrier`: two outputs, the four tasks
completing in the reverse of the order of launch. -/
theorem C5_makeWallpapers_barrier_witness :
    makeWallpapers "/d" [("a", "/a.png"), ("b", "/b.png")]
        (((launch "/d" [("a", "/a.png"), ("b", "/b.png")]).tasks.reverse).map GenTask.signal) =
      some ((launch "/d" [("a", "/a.png"), ("b", "/b.png")]).tasks, 2 * 2) :=
  (C5_makeWallpapers_barrier "/d" [("a", "/a.png"), ("b", "/b.png")]).2.2.2.1
    (launch "/d" [("a", "/a.png"), ("b", "/b.png")]).tasks.reverse
    (List.reverse_perm _)

/-! ## Variant generator -/

theorem resizePercents_makeBlurredArgs (blurAmount dir output wallpaperPath : String) :
    resizePercents (makeBlurredArgs blurAmount dir output wallpaperPath) = [5, 1000] := by
  have h5 : parsePercent "5%" = some 5 := by decide
  have h1000 : parsePercent "1000%" = some 1000 := by decide
  have e1 : ("-geometry" = "-resize") = False := by decide
  have e2 : ("-gravity" = "-resize") = False := by decide
  have e3 : ("-crop" = "-resize") = False := by decide
  have e4 : ("-blur" = "-resize") = False := by decide
  simp only [resizePercents, makeBlurredArgs, List.drop_succ_cons, List.drop_zero, pipelineOps,
    List.filterMap_cons, List.filterMap_nil, e1, e2, e3, e4, if_false, if_true, h5, h1000]

/-- Claim C8, as stated, fails: in the command that `makeBlurred` builds the
second resize is 1000%, a 10x upscale and not a 20x one, and the two resizes
do not compose to 100%. -/
theorem C8_counterexample :
    resizePercents (makeBlurredArgs "0x2" "/home/u/.waybl" "eDP-1" "/a.png") ≠ [5, 2000] ∧
    composedScale (resizePercents (makeBlurredArgs "0x2" "/home/u/.waybl" "eDP-1" "/a.png")) ≠ 1 := by
  rw [resizePercents_makeBlurredArgs]
  refine ⟨by decide, ?_⟩
  norm_num [composedScale]

/-- Claim C8, amended: in the command that `makeBlurred` builds, for every
cache directory, output name, source path and blur amount, the first resize is
5% and the second is 1000%, a 10x upscale of the 5% stage, and the two compose
to 50% of the cropped 1920x1080 image. -/
theorem C8_makeBlurred_resizes (blurAmount dir output wallpaperPath : String) :
    resizePercents (makeBlurredArgs blurAmount dir output wallpaperPath) = [5, 1000] ∧
    composedScale (resizePercents (makeBlurredArgs blurAmount dir output wallpaperPath)) =
      1 / 2 ∧
    composedScale [1000] = 10 := by
  rw [resizePercents_makeBlurredArgs]
  refine ⟨rfl, ?_, ?_⟩ <;> norm_num [composedScale]

/-! ## Variant files and the applier -/

/-- Claim C6 at a failing input: with the single argument `HDMI-A-1:/a.png`
the output->image map has the one entry `HDMI-A-1`, and `makeWallpapers` writes
that output's two variant files only. On a scene graph with the outputs
`HDMI-A-1` and `eDP-1`, each showing a visible container, `checkEntireTree`
calls the applier for `eDP-1` with its blurred variant path, which is none of
the files written. -/
theorem C6_unwritten_variant_applied :
    (mainArgs id ["waybl", "HDMI-A-1:/a.png"]).map ArgState.outputWalls =
      some [("HDMI-A-1", "/a.png")] ∧
    writtenFiles "/home/u/.waybl" [("HDMI-A-1", "/a.png")] =
      ["/home/u/.waybl/HDMI-A-1_blur.jpg", "/home/u/.waybl/HDMI-A-1.jpg"] ∧
    (checkEntireTree
      (Node.mk (NodeType.Other "root") false "root"
        [Node.mk NodeType.OutputNode false "HDMI-A-1"
          [Node.mk (NodeType.Other "workspace") false "1"
            [Node.mk NodeType.Con true "term" []]],
         Node.mk NodeType.OutputNode false "eDP-1"
          [Node.mk (NodeType.Other "workspace") false "2"
            [Node.mk NodeType.Con true "editor" []]]])
      "/home/u/.waybl" [("HDMI-A-1", "/a.png")] []).2 =
      [⟨"HDMI-A-1", "/home/u/.waybl/HDMI-A-1_blur.jpg"⟩,
       ⟨"eDP-1", "/home/u/.waybl/eDP-1_blur.jpg"⟩] ∧
    "/home/u/.waybl/eDP-1_blur.jpg" ∉ writtenFiles "/home/u/.waybl" [("HDMI-A-1", "/a.png")] := by
  decide

/-! ## Concurrent setBlur calls -/

/-- A goroutine running `setBlur` alone, from its first step to its last, does
what the function `setBlur` does. -/
theorem runSchedule_alone (o d : String) (b : Bool) (w : GoMap String) (s : GoMap Bool)
    (calls : List ApplierCall) :
    runSchedule [0, 0, 0] ⟨s, calls, [⟨o, b, d, BlurPc.check⟩]⟩ =
      ⟨(setBlur o b d w s).1, calls ++ (setBlur o b d w s).2, [⟨o, b, d, BlurPc.finished⟩]⟩ := by
  cases hs : stored s o <;> cases b <;>
    simp [runSchedule, stepThread, setBlur, hs]

/-- Claim C10 at a failing input: two goroutines `setBlur("eDP-1", true, ...)`
on an empty `blurBools`, both making the test of line 189 before either
assigns. No lock orders them, both find the stored state different from
`true`, both assign, and the applier is called twice. -/
theorem C10_unlocked_duplicate_transition :
    runSchedule [0, 1, 0, 1, 0, 1]
        ⟨[], [], [⟨"eDP-1", true, "/home/u/.waybl", BlurPc.check⟩,
                  ⟨"eDP-1", true, "/home/u/.waybl", BlurPc.check⟩]⟩ =
      ⟨[("eDP-1", true)],
       [⟨"eDP-1", "/home/u/.waybl/eDP-1_blur.jpg"⟩, ⟨"eDP-1", "/home/u/.waybl/eDP-1_blur.jpg"⟩],
       [⟨"eDP-1", true, "/home/u/.waybl", BlurPc.finished⟩,
        ⟨"eDP-1", true, "/home/u/.waybl", BlurPc.finished⟩]⟩ := by
  decide

/-! ## Argument loop of main -/

theorem splitChars_no_sep (sep : Char) :
    ∀ l : List Char, sep ∉ l → splitChars sep l = [l] := by
  intro l
  induction l with
  | nil => intro _; rfl
  | cons c rest ih =>
    intro h
    have hc : ¬ c = sep := fun e => h (by simp [e])
    have hrest : sep ∉ rest := fun e => h (by simp [e])
    simp [splitChars, hc, ih hrest]

theorem splitChars_append (sep : Char) (b : List Char) :
    ∀ a : List Char, sep ∉ a → splitChars sep (a ++ sep :: b) = a :: splitChars sep b := by
  intro a
  induction a with
  | nil => intro _; simp [splitChars]
  | cons c rest ih =>
    intro h
    have hc : ¬ c = sep := fun e => h (by simp [e])
    have hrest : sep ∉ rest := fun e => h (by simp [e])
    simp [splitChars, hc, ih hrest]

theorem entryArg_data (e : String × String) :
    (entryArg e).data = e.1.data ++ ':' :: e.2.data := by
  simp [entryArg, String.data_append]

theorem splitColon_entryArg (e : String × String) (h1 : ':' ∉ e.1.data)
    (h2 : ':' ∉ e.2.data) : splitColon (entryArg e) = [e.1, e.2] := by
  simp [splitColon, entryArg_data, splitChars_append ':' e.2.data e.1.data h1,
    splitChars_no_sep ':' e.2.data h2]

theorem containsColon_entryArg (e : String × String) : containsColon (entryArg e) = true := by
  simp [containsColon, entryArg_data]

theorem containsColon_false (b : String) (h : ':' ∉ b.data) : containsColon b = false := by
  simpa [containsColon] using h

theorem entryArg_not_flag (e : String × String) :
    ¬ (entryArg e = "-b" ∨ entryArg e = "--blur") := by
  have h := containsColon_entryArg e
  rintro (hc | hc) <;> rw [hc] at h <;> exact absurd h (by decide)

theorem entryArg_injective (e1 e2 : String × String)
    (h1 : ':' ∉ e1.1.data ∧ ':' ∉ e1.2.data) (h2 : ':' ∉ e2.1.data ∧ ':' ∉ e2.2.data)
    (h : entryArg e1 = entryArg e2) : e1 = e2 := by
  have s1 := splitColon_entryArg e1 h1.1 h1.2
  have s2 := splitColon_entryArg e2 h2.1 h2.2
  rw [h, s2] at s1
  simp only [List.cons.injEq, and_true] at s1
  exact Prod.ext s1.1.symm s1.2.symm

theorem argLoop_entry (expandEnv : String → String) (e : String × String)
    (rest : List String) (st : ArgState) (h1 : ':' ∉ e.1.data) (h2 : ':' ∉ e.2.data) :
    argLoop expandEnv (entryArg e :: rest) st =
      argLoop expandEnv rest
        { st with outputWalls := st.outputWalls.set e.1 (expandEnv e.2),
                  applies := st.applies ++ [⟨e.1, expandEnv e.2⟩] } := by
  conv_lhs => rw [argLoop.eq_def]
  simp only [entryArg_not_flag e, if_false, containsColon_entryArg e, if_true,
    splitColon_entryArg e h1 h2]

theorem argLoop_bare (expandEnv : String → String) (b : String)
    (rest : List String) (st : ArgState) (hb : ':' ∉ b.data)
    (hflag : ¬ (b = "-b" ∨ b = "--blur")) :
    argLoop expandEnv (b :: rest) st =
      argLoop expandEnv rest
        { st with globalWallpaper := b, applies := st.applies ++ [⟨"*", b⟩] } := by
  conv_lhs => rw [argLoop.eq_def]
  simp only [hflag, if_false, containsColon_false b hb, Bool.false_eq_true]

/-- The argument loop on a list made of `name:path` entries and a bare path:
it returns, every entry that occurs gives its name its expanded path, the names
of no occurring entry keep what they had, and the global wallpaper is the bare
path when that occurs and is untouched when not. -/
theorem argLoop_entries (expandEnv : String → String) (entries : List (String × String))
    (bare : String)
    (hcolon : ∀ e, e ∈ entries → ':' ∉ e.1.data ∧ ':' ∉ e.2.data)
    (hfun : ∀ e1, e1 ∈ entries → ∀ e2, e2 ∈ entries → e1.1 = e2.1 → e1 = e2)
    (hbare : ':' ∉ bare.data) (hflag : ¬ (bare = "-b" ∨ bare = "--blur")) :
    ∀ (args : List String) (st : ArgState),
      (∀ a, a ∈ args → a = bare ∨ ∃ e, e ∈ entries ∧ a = entryArg e) →
      ∃ st1, argLoop expandEnv args st = some st1 ∧
        (∀ e, e ∈ entries → entryArg e ∈ args →
          st1.outputWalls.get? e.1 = some (expandEnv e.2)) ∧
        (∀ o, (∀ e, e ∈ entries → entryArg e ∈ args → e.1 ≠ o) →
          st1.outputWalls.get? o = st.outputWalls.get? o) ∧
        (bare ∈ args → st1.globalWallpaper = bare) ∧
        (bare ∉ args → st1.globalWallpaper = st.globalWallpaper) := by
  have hbare_ne : ∀ e, entryArg e ≠ bare := by
    intro e he
    have h1 := containsColon_entryArg e
    rw [he, containsColon_false bare hbare] at h1
    exact absurd h1 (by decide)
  intro args
  induction args with
  | nil =>
    intro st _
    exact ⟨st, rfl, by simp, by simp, by simp, by simp⟩
  | cons a rest ih =>
    intro st hargs
    have hrest : ∀ a, a ∈ rest → a = bare ∨ ∃ e, e ∈ entries ∧ a = entryArg e :=
      fun x hx => hargs x (by simp [hx])
    rcases hargs a (by simp) with ha | ⟨e0, he0, ha⟩
    · subst ha
      rw [argLoop_bare expandEnv a rest st hbare hflag]
      obtain ⟨st1, hrun, hent, hkeep, hg1, hg2⟩ := ih _ hrest
      refine ⟨st1, hrun, ?_, ?_, ?_, ?_⟩
      · intro e he hmem
        rcases List.mem_cons.1 hmem with h | h
        · exact absurd h (hbare_ne e)
        · exact hent e he h
      · intro o ho
        exact hkeep o (fun e he hmem => ho e he (by simp [hmem]))
      · intro _
        by_cases hin : a ∈ rest
        · exact hg1 hin
        · exact hg2 hin
      · intro hnot
        exact absurd (List.mem_cons_self a rest) hnot
    · subst ha
      have hc0 := hcolon e0 he0
      rw [argLoop_entry expandEnv e0 rest st hc0.1 hc0.2]
      obtain ⟨st1, hrun, hent, hkeep, hg1, hg2⟩ := ih _ hrest
      refine ⟨st1, hrun, ?_, ?_, ?_, ?_⟩
      · intro e he hmem
        by_cases hin : entryArg e ∈ rest
        · exact hent e he hin
        · have heq : entryArg e = entryArg e0 := by
            rcases List.mem_cons.1 hmem with h | h
            · exact h
            · exact absurd h hin
          have hee : e = e0 := entryArg_injective e e0 (hcolon e he) hc0 heq
          subst hee
          rw [hkeep e.1 (fun e2 he2 hmem2 hname => by
            have h2 : e2 = e := hfun e2 he2 e he hname
            subst h2
            exact hin hmem2)]
          exact GoMap.get?_set_same _ _ _
      · intro o ho
        have hne : o ≠ e0.1 := fun h => ho e0 he0 (by simp) h.symm
        rw [hkeep o (fun e he hmem => ho e he (by simp [hmem]))]
        exact GoMap.get?_set_other _ _ _ _ hne
      · intro hmem
        rcases List.mem_cons.1 hmem with h | h
        · exact absurd h.symm (hbare_ne e0)
        · exact hg1 h
      · intro hnot
        exact hg2 (fun h => hnot (by simp [h]))

theorem nodup_names_functional (entries : List (String × String))
    (hnd : (entries.map Prod.fst).Nodup) :
    ∀ e1, e1 ∈ entries → ∀ e2, e2 ∈ entries → e1.1 = e2.1 → e1 = e2 := by
  intro e1 h1 e2 h2 h
  exact List.inj_on_of_nodup_map hnd h1 h2 h

theorem mainArgs_resolution (expandEnv : String → String) (prog : String)
    (entries : List (String × String)) (bare : Option String) (args : List String)
    (hperm : args.Perm (entries.map entryArg ++ bare.toList))
    (hnd : (entries.map Prod.fst).Nodup)
    (hcolon : ∀ e, e ∈ entries → ':' ∉ e.1.data ∧ ':' ∉ e.2.data)
    (hbare : ∀ b, b ∈ bare → ':' ∉ b.data ∧ b ≠ "-b" ∧ b ≠ "--blur") :
    ∃ st, mainArgs expandEnv (prog :: args) = some st ∧
      (∀ e, e ∈ entries → resolveImage st e.1 = expandEnv e.2) ∧
      (∀ o, o ∉ entries.map Prod.fst → resolveImage st o = bare.getD "") := by
  have hfun := nodup_names_functional entries hnd
  have hmem : ∀ a, a ∈ args ↔ a ∈ entries.map entryArg ∨ a ∈ bare.toList := by
    intro a
    rw [hperm.mem_iff, List.mem_append]
  have hentry_mem : ∀ e, e ∈ entries → entryArg e ∈ args :=
    fun e he => (hmem _).2 (Or.inl (List.mem_map.2 ⟨e, he, rfl⟩))
  have hinit : ∀ o, ArgState.init.outputWalls.get? o = none := fun o => rfl
  cases bare with
  | none =>
    have hargs : ∀ a, a ∈ args → a = "" ∨ ∃ e, e ∈ entries ∧ a = entryArg e := by
      intro a ha
      rcases (hmem a).1 ha with h | h
      · obtain ⟨e, he, hea⟩ := List.mem_map.1 h
        exact Or.inr ⟨e, he, hea.symm⟩
      · simp at h
    obtain ⟨st, hrun, hent, hkeep, hg1, hg2⟩ :=
      argLoop_entries expandEnv entries "" hcolon hfun (by decide) (by decide) args
        ArgState.init hargs
    refine ⟨st, hrun, ?_, ?_⟩
    · intro e he
      simp [resolveImage, hent e he (hentry_mem e he)]
    · intro o ho
      have hk := hkeep o (fun e he _ hname => ho (List.mem_map.2 ⟨e, he, hname⟩))
      have hg : st.globalWallpaper = "" := by
        by_cases hin : "" ∈ args
        · exact hg1 hin
        · exact hg2 hin
      simp [resolveImage, hk, hinit, hg]
  | some b =>
    obtain ⟨hb1, hb2, hb3⟩ := hbare b rfl
    have hargs : ∀ a, a ∈ args → a = b ∨ ∃ e, e ∈ entries ∧ a = entryArg e := by
      intro a ha
      rcases (hmem a).1 ha with h | h
      · obtain ⟨e, he, hea⟩ := List.mem_map.1 h
        exact Or.inr ⟨e, he, hea.symm⟩
      · exact Or.inl (by simpa using h)
    obtain ⟨st, hrun, hent, hkeep, hg1, _⟩ :=
      argLoop_entries expandEnv entries b hcolon hfun hb1
        (fun h => h.elim hb2 hb3) args ArgState.init hargs
    refine ⟨st, hrun, ?_, ?_⟩
    · intro e he
      simp [resolveImage, hent e he (hentry_mem e he)]
    · intro o ho
      have hk := hkeep o (fun e he _ hname => ho (List.mem_map.2 ⟨e, he, hname⟩))
      have hg : st.globalWallpaper = b := hg1 ((hmem b).2 (Or.inr (by simp)))
      simp [resolveImage, hk, hinit, hg]

/-- Claim C7, as stated, fails. The entry of the name `a:b` and the colon-free
path `/x.png` is the argument `a:b:/x.png`; the loop splits it at every colon
and records `b` for the output `a`, so the output `a:b` has no entry and
resolves to the empty global wallpaper, not to `/x.png`. And the lone bare path
`-b` is read as the blur flag: the loop reads the argument after it, past the
end, and panics. -/
theorem C7_counterexample :
    (':' ∉ "/x.png".data ∧
      (mainArgs id ["waybl", entryArg ("a:b", "/x.png")]).map
        (fun st => (st.outputWalls, resolveImage st "a:b")) = some ([("a", "b")], "")) ∧
    (':' ∉ "-b".data ∧ mainArgs id ["waybl", "-b"] = none) := by
  decide

/-- Claim C7, amended: with environment expansion the identity on paths
without a dollar sign, for the arguments `office:/a.png`, `/b.png` the output
`office` resolves to `/a.png` and every other output to `/b.png`; for the
argument `/b.png` alone every output resolves to `/b.png`; and for every
argument list made, in any order, of `name:path` entries with distinct
colon-free names and colon-free paths plus at most one bare path that has no
colon and is neither `-b` nor `--blur`, the loop returns, each named output
resolves to the expansion of its own path (the path itself when it has no
dollar sign), and every unnamed output resolves to the bare path (the empty
string when there is none). -/
theorem C7_resolution (expandEnv : String → String)
    (hexp : ∀ p : String, '$' ∉ p.data → expandEnv p = p) (prog : String) :
    (∃ st, mainArgs expandEnv [prog, "office:/a.png", "/b.png"] = some st ∧
      resolveImage st "office" = "/a.png" ∧
      ∀ o, o ≠ "office" → resolveImage st o = "/b.png") ∧
    (∃ st, mainArgs expandEnv [prog, "/b.png"] = some st ∧
      ∀ o, resolveImage st o = "/b.png") ∧
    (∀ (entries : List (String × String)) (bare : Option String) (args : List String),
      args.Perm (entries.map entryArg ++ bare.toList) →
      (entries.map Prod.fst).Nodup →
      (∀ e, e ∈ entries → ':' ∉ e.1.data ∧ ':' ∉ e.2.data) →
      (∀ b, b ∈ bare → ':' ∉ b.data ∧ b ≠ "-b" ∧ b ≠ "--blur") →
      ∃ st, mainArgs expandEnv (prog :: args) = some st ∧
        (∀ e, e ∈ entries → resolveImage st e.1 = expandEnv e.2 ∧
          ('$' ∉ e.2.data → resolveImage st e.1 = e.2)) ∧
        (∀ o, o ∉ entries.map Prod.fst → resolveImage st o = bare.getD "")) := by
  refine ⟨?_, ?_, ?_⟩
  · obtain ⟨st, hrun, hent, hother⟩ :=
      mainArgs_resolution expandEnv prog [("office", "/a.png")] (some "/b.png")
        ["office:/a.png", "/b.png"] (by decide) (by decide) (by decide) (by decide)
    refine ⟨st, hrun, ?_, ?_⟩
    · have h := hent ("office", "/a.png") (by simp)
      rw [hexp "/a.png" (by decide)] at h
      exact h
    · intro o ho
      exact hother o (by simpa using ho)
  · obtain ⟨st, hrun, _, hother⟩ :=
      mainArgs_resolution expandEnv prog [] (some "/b.png") ["/b.png"]
        (by decide) (by decide) (by decide) (by decide)
    exact ⟨st, hrun, fun o => hother o (by simp)⟩
  · intro entries bare args hperm hnd hcolon hbare
    obtain ⟨st, hrun, hent, hother⟩ :=
      mainArgs_resolution expandEnv prog entries bare args hperm hnd hcolon hbare
    refine ⟨st, hrun, fun e he => ⟨hent e he, fun hd => ?_⟩, hother⟩
    rw [hent e he, hexp e.2 hd]

/-- Witness of `C7_resolution`: no expansion, the bare path before the entry. -/
theorem C7_resolution_witness :
    ∃ st, mainArgs id ("waybl" :: ["/b.png", "office:/a.png"]) = some st ∧
      (∀ e, e ∈ [("office", "/a.png")] → resolveImage st e.1 = id e.2 ∧
        ('$' ∉ e.2.data → resolveImage st e.1 = e.2)) ∧
      (∀ o, o ∉ [("office", "/a.png")].map Prod.fst →
        resolveImage st o = (some "/b.png").getD "") :=
  (C7_resolution id (fun _ _ => rfl) "waybl").2.2 [("office", "/a.png")] (some "/b.png")
    ["/b.png", "office:/a.png"] (by decide) (by decide) (by decide) (by decide)

end Waybl
